import Mathlib

/-!
Shallow embedding of `khal/controllers.py` (agenda rendering engine).

Modelling conventions:
* `datetime.date` values are modelled as `Int` (days since an arbitrary epoch);
  `date + datetime.timedelta(days=k)` becomes integer addition, and the
  chronological order on dates is the order on `Int`.
* `datetime.date.today()` is a side effect of the environment; it is passed
  explicitly as a `today : Int` parameter.
* The locale's `longdateformat` is only ever used through `strftime`; we model
  the formatting of a date under that format as a function `fmt : Int → String`.
* Events are consumed read-only: only their start instant, colour and compact
  per-day description are observed by the agenda code, so an `Event` carries
  exactly those.  The start instants of the timed events of one day all lie in
  the same day, so comparing `e.start` values as `Int` is faithful.
* The calendar collection is an external collaborator; `get_agenda` only calls
  `get_allday_by_time_range(day)` and
  `get_datetime_by_time_range(combine(day, time.min), combine(day, time.max))`.
  Both calls are determined by `day`, so the collection is modelled by two
  functions from a day to an event list.
* `click.style(s, bold=True)` and `terminal.colored(s, color)` produce styled
  text; we keep them abstract as the constructors of `StyledLine`.
* The `assert` statement at the top of `get_agenda` is modelled by returning
  `none`; a normal return is `some lines`.
* The `dates` argument of `get_agenda` may contain strings which are parsed by
  the external `aux.datefstr`; the claims under verification all speak about
  the list of resolved dates, so the model takes the already-resolved list
  (`Option (List Int)`, `none` standing for Python `None`).
-/

/-- A styled output line: either a bold header (click.style with bold=True) or
an event description line coloured by the event's colour. -/
inductive StyledLine where
  | bold (s : String)
  | colored (s : String) (color : Nat)
deriving DecidableEq

/-- An event as observed by the agenda renderer: start instant, colour, and the
compact one-line description it produces for a given day
(`event.compact(day)`), as a character list. -/
structure Event where
  start : Int
  color : Nat
  compact : Int → List Char

/-- The calendar collection collaborator, restricted to the two queries
`get_agenda` performs per day.  `timed day` stands for
`get_datetime_by_time_range(combine(day, time.min), combine(day, time.max))`. -/
structure Collection where
  allday : Int → List Event
  timed : Int → List Event

/-! ## Model of `textwrap.wrap` (Python standard library, default options)

`get_agenda` wraps each compact description with `textwrap.wrap(desc, width)`.
The model below follows CPython's `TextWrapper` with its default options
(`replace_whitespace=True`, `drop_whitespace=True`, `break_long_words=True`):
whitespace characters are replaced by spaces, the text is split into maximal
runs of spaces and of non-spaces ("chunks"), and lines are assembled greedily,
breaking chunks longer than the width and dropping whitespace chunks at line
boundaries.  Tab expansion (`expand_tabs`) is modelled as replacement by a
single space, and the extra break opportunities of `break_on_hyphens` are not
modelled; neither affects any input appearing in the claims. -/

/-- Is this character a (normalised) space? -/
def isSp (c : Char) : Bool := c = ' '

/-- The ASCII whitespace characters that CPython's `TextWrapper` replaces by
spaces (`replace_whitespace=True`). -/
def isSpaceChar (c : Char) : Bool :=
  c = ' ' || c = '\t' || c = '\n' || c = Char.ofNat 11 || c = Char.ofNat 12 || c = '\r'

/-- Replace every whitespace character by a plain space. -/
def replaceWhitespace (s : List Char) : List Char :=
  s.map fun c => if isSpaceChar c then ' ' else c

/-- Fuel-indexed splitting of a character list into maximal runs of spaces and
of non-spaces; every step consumes at least one character, so fuel equal to
the length of the list suffices. -/
def splitChunksF : Nat → List Char → List (List Char)
  | 0, _ => []
  | _ + 1, [] => []
  | n + 1, c :: cs =>
    (c :: cs.takeWhile fun d => isSp d == isSp c) ::
      splitChunksF n (cs.dropWhile fun d => isSp d == isSp c)

/-- Split a character list into maximal runs of spaces and of non-spaces, in
order (the chunk list of `TextWrapper._split`). -/
def splitChunks (l : List Char) : List (List Char) := splitChunksF l.length l

/-- Total number of characters in a list of chunks. -/
def sumLens (l : List (List Char)) : Nat := (l.map List.length).sum

/-- Greedy filling of one line: take chunks while they fit within the width
(the inner loop of `TextWrapper._wrap_chunks`); returns the line's chunks and
the remaining chunks. -/
def fillLine (w : Nat) : Nat → List (List Char) → List (List Char) × List (List Char)
  | _, [] => ([], [])
  | cur, ch :: rest =>
    if cur + ch.length ≤ w then
      match fillLine w (cur + ch.length) rest with
      | (line, rem) => (ch :: line, rem)
    else ([], ch :: rest)

/-- Drop the last chunk of a line if it is all whitespace
(the `drop_whitespace` step at the end of a line). -/
def dropLastIfSpace (line : List (List Char)) : List (List Char) :=
  match line.getLast? with
  | some ch => if ch.all isSp then line.dropLast else line
  | none => line

/-- The long-word handling step (`TextWrapper._handle_long_word`): if the next
remaining chunk is longer than the whole width, break it, putting as much of
it on the current line as fits (`break_long_words=True`). -/
def handleLong (w : Nat) (fl : List (List Char) × List (List Char)) :
    List (List Char) × List (List Char) :=
  match fl.2 with
  | ch :: rest =>
    if w < ch.length then
      let spaceLeft := if w < 1 then 1 else w - sumLens fl.1
      (fl.1 ++ [ch.take spaceLeft], ch.drop spaceLeft :: rest)
    else (fl.1, ch :: rest)
  | [] => (fl.1, [])

/-- The outer loop of `TextWrapper._wrap_chunks`: repeatedly assemble one line.
`emitted` records whether any line has been produced so far (Python's
`lines` being non-empty), which governs dropping of leading whitespace.
Chunks longer than the width are broken (`break_long_words=True`).  The fuel
argument dominates the number of iterations; each iteration on a non-empty
chunk list consumes at least one chunk or one character, so
`total characters + number of chunks + 1` is always sufficient. -/
def wrapLoop (w : Nat) : Nat → Bool → List (List Char) → List (List Char)
  | 0, _, _ => []
  | _ + 1, _, [] => []
  | fuel + 1, emitted, ch0 :: rest0 =>
    let chunks := if emitted && ch0.all isSp then rest0 else ch0 :: rest0
    let st := handleLong w (fillLine w 0 chunks)
    let line := dropLastIfSpace st.1
    if line.isEmpty then wrapLoop w fuel emitted st.2
    else line.flatten :: wrapLoop w fuel true st.2

/-- Model of `textwrap.wrap(s, w)` with default options. -/
def wrap (s : List Char) (w : Nat) : List (List Char) :=
  let chunks := splitChunks (replaceWhitespace s)
  wrapLoop w (s.length + chunks.length + 1) false chunks

/-! ## The agenda renderer (`controllers.py`) -/

/-- Model of `construct_daynames` (controllers.py lines 44-60): label each date
with "Today:", "Tomorrow:" or its `longdateformat` rendering.  The Python
generator re-evaluates `datetime.date.today()` per element; the model fixes
`today` for the whole call, which is the behaviour within any single instant. -/
def construct_daynames (today : Int) (daylist : List Int) (fmt : Int → String) :
    List (Int × String) :=
  daylist.map fun d =>
    (d, if d = today then "Today:"
        else if d = today + 1 then "Tomorrow:"
        else fmt d)

/-- The day-range expansion of `get_agenda` (controllers.py lines 98-101):
`daylist = [date + timedelta(days=one) for one in range(days) for date in dates]`
followed by the stable in-place `daylist.sort()`. -/
def expandDays (dates : List Int) (days : Nat) : List Int :=
  ((List.range days).flatMap fun one => dates.map fun d => d + (one : Int)).mergeSort
    fun a b => decide (a ≤ b)

/-- Resolution of the `dates` argument (controllers.py lines 85-86):
`None` or the empty list defaults to `[today]`. -/
def resolveDates (today : Int) : Option (List Int) → List Int
  | none => [today]
  | some [] => [today]
  | some ds => ds

/-- The timed events of a day, sorted in place by start instant
(`events.sort(key=lambda e: e.start)`, a stable sort). -/
def sortedTimed (c : Collection) (day : Int) : List Event :=
  (c.timed day).mergeSort fun a b => decide (a.start ≤ b.start)

/-- The wrapped, coloured lines emitted for one event on one day
(controllers.py lines 118-119). -/
def eventLines (w : Nat) (day : Int) (e : Event) : List StyledLine :=
  (wrap (e.compact day) w).map fun d => StyledLine.colored (String.mk d) e.color

/-- The lines emitted for one `(day, dayname)` pair of the main loop of
`get_agenda` (controllers.py lines 105-119): skip the day when it has no
events and `show_all_days` is false, otherwise a bold header followed by the
all-day events in source order and the timed events sorted by start. -/
def dayLines (c : Collection) (w : Nat) (show_all_days : Bool) (day : Int)
    (dayname : String) : List StyledLine :=
  if (c.timed day).length = 0 ∧ (c.allday day).length = 0 ∧ show_all_days = false
  then []
  else
    StyledLine.bold dayname ::
      (c.allday day ++ sortedTimed c day).flatMap (eventLines w day)

/-- The whole event column accumulated by the main loop of `get_agenda`
for an already-resolved date list and day count. -/
def event_column (c : Collection) (fmt : Int → String) (today : Int)
    (dates : List Int) (days : Nat) (w : Nat) (show_all_days : Bool) :
    List StyledLine :=
  (construct_daynames today (expandDays dates days) fmt).flatMap fun p =>
    dayLines c w show_all_days p.1 p.2

/-- Model of `get_agenda` (controllers.py lines 63-123).  The `assert` at line
79 is modelled by `none`; the `events` parameter is otherwise unused by the
model because the Python code overwrites it (line 111) before any read.
`days = none` defaults to 2, `dates` resolution as in `resolveDates`. -/
def get_agenda (c : Collection) (fmt : Int → String) (today : Int)
    (dates : Option (List Int)) (days : Option Nat) (events : Option (List Event))
    (w : Nat) (show_all_days : Bool) : Option (List StyledLine) :=
  if days.isSome ∧ events.isSome then none
  else
    let col := event_column c fmt today (resolveDates today dates) (days.getD 2) w
      show_all_days
    some (if col = [] then [StyledLine.bold "No events"] else col)

/-! ## Model of `NewFromString` (controllers.py lines 157-183) -/

/-- The observable outcome of a `NewFromString` invocation: logged error
messages, lines printed to standard output, and the exit status if the process
terminated early (`none` = normal completion). -/
structure NFSOutcome where
  logs : List String
  printed : List String
  exitCode : Option Nat
deriving DecidableEq

/-- Modelled from the spec: `aux.construct_event`, the external free-text
event parser, is not part of `src/`.  Per the spec it "fails with a generic
fatal condition on malformed input" and a parse error is "reported to the
user" ("exit with status 1 after logging").  Its outcome is modelled as an
`Except` value whose error carries the message the parser logged. -/
def ParseOutcome := Except String String

/-- Model of `NewFromString.__init__`: on a parse failure exit with status 1
(controllers.py lines 160-167; the error message was logged by the parser);
on a read-only calendar log the explicit message and exit with status 1
(lines 173-178); otherwise print according to the `print_new` configuration
(lines 179-183). -/
def newFromString (parsed : Except String String) (readOnly : Bool)
    (calName : String) (printNew : String) (longForm : String)
    (pathStr : String) : NFSOutcome :=
  match parsed with
  | .error msg => { logs := [msg], printed := [], exitCode := some 1 }
  | .ok _ =>
    if readOnly then
      { logs := ["ERROR: Cannot modify calendar \x22" ++ calName ++
          "\x22 as it is read-only"],
        printed := [], exitCode := some 1 }
    else
      { logs := [],
        printed :=
          if printNew = "event" then [longForm]
          else if printNew = "path" then [pathStr]
          else [],
        exitCode := none }

/-! ## Concrete fixtures used by witnesses and counterexamples -/

/-- A collection with no events at all. -/
def emptyColl : Collection := ⟨fun _ => [], fun _ => []⟩

/-- A timed event starting at instant 0 with colour 1. -/
def e1 : Event := ⟨0, 1, fun _ => ['x']⟩

/-- A second timed event with the same start instant but colour 2. -/
def e2 : Event := ⟨0, 2, fun _ => ['y']⟩

/-- A collection whose every day has the two equal-start timed events
`e1, e2` (in that source order) and no all-day events. -/
def twoColl : Collection := ⟨fun _ => [], fun _ => [e1, e2]⟩

/-- A timed event whose compact description is the 6-character string
"abcd  " (four letters followed by two trailing spaces). -/
def cexEvent : Event := ⟨0, 0, fun _ => "abcd  ".toList⟩

/-- A collection whose every day has exactly the timed event `cexEvent`. -/
def cexColl : Collection := ⟨fun _ => [], fun _ => [cexEvent]⟩

/-! ## Predicates about descriptions and chunk lists -/

/-- Executable check that no two adjacent characters are both spaces. -/
def noDoubleSpaceB : List Char → Bool
  | [] => true
  | [_] => true
  | a :: b :: t => (!isSp a || !isSp b) && noDoubleSpaceB (b :: t)

/-- A character list with no leading or trailing space, no two adjacent
whitespace characters, and whose whitespace characters are all plain spaces. -/
def Tidy (s : List Char) : Prop :=
  s.head? ≠ some ' ' ∧ s.getLast? ≠ some ' ' ∧
  s.Chain' (fun a b => isSp a = false ∨ isSp b = false) ∧
  ∀ c ∈ s, isSpaceChar c = true → c = ' '

instance tidyDecidable (s : List Char) : Decidable (Tidy s) :=
  decidable_of_iff (s.head? ≠ some ' ' ∧ s.getLast? ≠ some ' ' ∧
    noDoubleSpaceB s = true ∧ ∀ c ∈ s, isSpaceChar c = true → c = ' ') <| by
    have key : ∀ t : List Char, (noDoubleSpaceB t = true ↔
        t.Chain' fun a b => isSp a = false ∨ isSp b = false) := by
      intro t
      induction t with
      | nil => simp [noDoubleSpaceB]
      | cons a t ih =>
        cases t with
        | nil => simp [noDoubleSpaceB]
        | cons b t2 =>
          rw [List.chain'_cons, ← ih]
          simp [noDoubleSpaceB, Bool.and_eq_true, Bool.or_eq_true,
            Bool.not_eq_true', and_comm]
    unfold Tidy
    rw [key s]

/-- A non-empty chunk consisting of non-space characters only. -/
def WordChunk (ch : List Char) : Prop :=
  ch ≠ [] ∧ ch.all (fun c => !isSp c) = true

/-- The invariant maintained on the chunk list while wrapping a tidy string:
every chunk is a single space or a word, no two adjacent single-space chunks,
and the last chunk is not a space. -/
def ChunksInv (L : List (List Char)) : Prop :=
  (∀ ch ∈ L, ch = [' '] ∨ WordChunk ch) ∧
  L.Chain' (fun a b => ¬(a = [' '] ∧ b = [' '])) ∧
  ∀ ch, L.getLast? = some ch → ch ≠ [' ']

/-! ## Helper lemmas -/

/-- Distributing a cons inside a flatMap, up to permutation. -/
theorem flatMap_cons_perm (l : List α) (g : α → γ) (h : α → List γ) :
    (l.flatMap fun b => g b :: h b).Perm (l.map g ++ l.flatMap h) := by
  induction l with
  | nil => simp
  | cons b bs ih =>
    simp only [List.flatMap_cons, List.map_cons, List.cons_append]
    refine List.Perm.cons _ (List.Perm.trans (ih.append_left (h b)) ?_)
    rw [← List.append_assoc, ← List.append_assoc]
    exact List.perm_append_comm.append_right _

/-- Swapping the two loops of a double flatMap, up to permutation. -/
theorem flatMap_swap_perm (l1 : List α) (l2 : List β) (f : α → β → γ) :
    (l1.flatMap fun a => l2.map (f a)).Perm
      (l2.flatMap fun b => l1.map fun a => f a b) := by
  induction l1 with
  | nil => simp
  | cons a l1 ih =>
    simp only [List.flatMap_cons, List.map_cons]
    refine List.Perm.trans ?_ (flatMap_cons_perm l2 (fun b => f a b)
      (fun b => l1.map fun a => f a b)).symm
    exact ih.append_left _

/-- The expanded day list is a permutation of the date-major flattening
described by the spec (duplicates kept). -/
theorem expandDays_perm (dates : List Int) (n : Nat) :
    (expandDays dates n).Perm
      (dates.flatMap fun d => (List.range n).map fun k : Nat => d + (k : Int)) := by
  refine (List.mergeSort_perm _ _).trans ?_
  exact flatMap_swap_perm (List.range n) dates fun k d => d + (k : Int)

/-- The expanded day list is chronologically sorted. -/
theorem expandDays_sorted (dates : List Int) (n : Nat) :
    List.Sorted (· ≤ ·) (expandDays dates n) := by
  have h := @List.sorted_mergeSort Int (fun a b : Int => decide (a ≤ b))
    (fun a b c hab hbc => by
      simp only [decide_eq_true_eq] at *; omega)
    (fun a b => by
      simp only [Bool.or_eq_true, decide_eq_true_eq]; omega)
    ((List.range n).flatMap fun one => dates.map fun d => d + (one : Int))
  exact h.imp fun {a b} hab => by simpa using hab

/-- Stability of the per-day timed-event sort: events with a given start
instant keep their source order. -/
theorem mergeSort_filter_start (l : List Event) (t : Int) :
    ((l.mergeSort fun a b => decide (a.start ≤ b.start)).filter
        fun e => decide (e.start = t)) =
      l.filter fun e => decide (e.start = t) := by
  have trans : ∀ (a b c : Event), decide (a.start ≤ b.start) = true →
      decide (b.start ≤ c.start) = true → decide (a.start ≤ c.start) = true := by
    intro a b c hab hbc; simp only [decide_eq_true_eq] at *; omega
  have total : ∀ (a b : Event),
      (decide (a.start ≤ b.start) || decide (b.start ≤ a.start)) = true := by
    intro a b; simp only [Bool.or_eq_true, decide_eq_true_eq]; omega
  have hpw : (l.filter fun e => decide (e.start = t)).Pairwise
      fun a b => decide (a.start ≤ b.start) = true := by
    refine List.pairwise_of_forall_mem_list ?_
    intro a ha b hb
    have ha' := (List.mem_filter.1 ha).2
    have hb' := (List.mem_filter.1 hb).2
    simp only [decide_eq_true_eq] at *
    omega
  have hsub := List.sublist_mergeSort trans total hpw
    (@List.filter_sublist _ (fun e => decide (e.start = t)) l)
  have h2 := hsub.filter fun e => decide (e.start = t)
  rw [List.filter_filter] at h2
  simp only [Bool.and_self] at h2
  have hlen := (List.Perm.filter (fun e => decide (e.start = t))
    (List.mergeSort_perm l fun a b => decide (a.start ≤ b.start))).length_eq
  exact (h2.eq_of_length (by omega)).symm

/-! ## Claims -/

/-- C1: for every collection, locale, dates list, day count, width and
showAllDays flag satisfying the precondition (days and events not both
supplied), `get_agenda` returns a non-empty sequence; if the per-day loop
emitted no header or event line, the result is exactly one bold
"No events" line. -/
theorem get_agenda_never_empty (c : Collection) (fmt : Int → String)
    (today : Int) (dates : Option (List Int)) (days : Option Nat)
    (events : Option (List Event)) (w : Nat) (sad : Bool)
    (h : days = none ∨ events = none) :
    ∃ out, get_agenda c fmt today dates days events w sad = some out ∧
      out ≠ [] ∧
      (event_column c fmt today (resolveDates today dates) (days.getD 2) w sad
          = [] → out = [StyledLine.bold "No events"]) := by
  have hcond : ¬(days.isSome ∧ events.isSome) := by
    rcases h with h | h <;> subst h <;> simp
  by_cases hc :
      event_column c fmt today (resolveDates today dates) (days.getD 2) w sad = []
  · refine ⟨[StyledLine.bold "No events"], ?_, by simp, fun _ => rfl⟩
    simp [get_agenda, hcond, hc]
  · refine ⟨event_column c fmt today (resolveDates today dates) (days.getD 2) w
      sad, ?_, hc, fun hh => absurd hh hc⟩
    simp [get_agenda, hcond, hc]

/-- Witness for C1: on an empty collection with all arguments defaulted the
theorem applies and the fallback line is reachable. -/
theorem get_agenda_never_empty_witness :
    ∃ out, get_agenda emptyColl (fun _ => "x") 0 none none none 45 false
        = some out ∧ out ≠ [] ∧
      (event_column emptyColl (fun _ => "x") 0 (resolveDates 0 none)
          ((none : Option Nat).getD 2) 45 false = [] →
        out = [StyledLine.bold "No events"]) :=
  get_agenda_never_empty emptyColl (fun _ => "x") 0 none none none 45 false
    (Or.inl rfl)

/-- C2: the expanded day list equals the multiset of `d + k` for `d` in the
resolved dates and `0 ≤ k < n` (duplicates kept), sorted chronologically:
it is a permutation of the spec's date-major flattening and is sorted. -/
theorem expandDays_spec (dates : List Int) (n : Nat) :
    (expandDays dates n).Perm
        (dates.flatMap fun d => (List.range n).map fun k : Nat => d + (k : Int)) ∧
    List.Sorted (· ≤ ·) (expandDays dates n) :=
  ⟨expandDays_perm dates n, expandDays_sorted dates n⟩

/-- C3 counterexample: with dayCount = 0 the expansion of the one-element
date list `[5]` is empty, not `[5]` as the claim states. -/
theorem expandDays_zero_cex :
    expandDays [5] 0 = ([] : List Int) ∧ expandDays [5] 0 ≠ [(5 : Int)] := by
  constructor <;> simp [expandDays]

/-- C3 amended: with dayCount = 0 the expanded day list is empty; the claimed
property holds at dayCount = 1, where the expanded day list equals the input
date list (duplicates kept) sorted chronologically. -/
theorem expandDays_zero_one (dates : List Int) :
    expandDays dates 0 = [] ∧
    (expandDays dates 1).Perm dates ∧
    List.Sorted (· ≤ ·) (expandDays dates 1) := by
  refine ⟨by simp [expandDays], ?_, expandDays_sorted dates 1⟩
  refine (expandDays_perm dates 1).trans ?_
  have : ∀ d : Int, (List.range 1).map (fun k : Nat => d + (k : Int)) = [d] := by
    intro d; simp [List.range_succ]
  simp [this]

/-- C4: a day whose queries return no all-day and no timed events produces no
lines at all (no header) when showAllDays is false; when showAllDays is true
the day always produces a bold header line with its label. -/
theorem dayLines_skip_or_header (c : Collection) (w : Nat) (day : Int)
    (name : String) :
    (c.timed day = [] → c.allday day = [] → dayLines c w false day name = []) ∧
    ∃ rest, dayLines c w true day name = StyledLine.bold name :: rest := by
  constructor
  · intro h1 h2
    unfold dayLines
    rw [if_pos ⟨by simp [h1], by simp [h2], rfl⟩]
  · exact ⟨_, by unfold dayLines; rw [if_neg (by simp)]⟩

/-- Witness for C4 on the empty collection. -/
theorem dayLines_skip_or_header_witness :
    (dayLines emptyColl 45 false 0 "x" = []) ∧
    ∃ rest, dayLines emptyColl 45 true 0 "x" = StyledLine.bold "x" :: rest :=
  ⟨(dayLines_skip_or_header emptyColl 45 0 "x").1 rfl rfl,
    (dayLines_skip_or_header emptyColl 45 0 "x").2⟩

/-- C5: on a day that produces output, the emitted event lines are the all-day
events first in source order followed by the timed events sorted by start
instant; the sort is a permutation of the source, is sorted by start, and is
stable (events with any given start instant keep their source order). -/
theorem dayLines_ordering (c : Collection) (w : Nat) (sad : Bool) (day : Int)
    (name : String)
    (h : sad = true ∨ c.timed day ≠ [] ∨ c.allday day ≠ []) :
    dayLines c w sad day name =
      StyledLine.bold name ::
        (c.allday day ++ sortedTimed c day).flatMap (eventLines w day) ∧
    (sortedTimed c day).Perm (c.timed day) ∧
    List.Pairwise (fun a b => a.start ≤ b.start) (sortedTimed c day) ∧
    ∀ t : Int, ((sortedTimed c day).filter fun e => decide (e.start = t)) =
      (c.timed day).filter fun e => decide (e.start = t) := by
  have hcond :
      ¬((c.timed day).length = 0 ∧ (c.allday day).length = 0 ∧ sad = false) := by
    rcases h with h | h | h <;> simp [h, List.length_eq_zero]
  refine ⟨by unfold dayLines; rw [if_neg hcond], List.mergeSort_perm _ _, ?_,
    fun t => mergeSort_filter_start (c.timed day) t⟩
  have hs := @List.sorted_mergeSort Event
    (fun a b : Event => decide (a.start ≤ b.start))
    (fun a b c hab hbc => by simp only [decide_eq_true_eq] at *; omega)
    (fun a b => by simp only [Bool.or_eq_true, decide_eq_true_eq]; omega)
    (c.timed day)
  exact hs.imp fun {a b} hab => by simpa using hab

/-- Witness for C5 on a collection with two equal-start timed events. -/
theorem dayLines_ordering_witness :
    dayLines twoColl 5 false 0 "d" =
      StyledLine.bold "d" ::
        (twoColl.allday 0 ++ sortedTimed twoColl 0).flatMap (eventLines 5 0) ∧
    (sortedTimed twoColl 0).Perm (twoColl.timed 0) ∧
    List.Pairwise (fun a b => a.start ≤ b.start) (sortedTimed twoColl 0) ∧
    ((sortedTimed twoColl 0).filter fun e => decide (e.start = 0)) =
      (twoColl.timed 0).filter fun e => decide (e.start = 0) :=
  ⟨(dayLines_ordering twoColl 5 false 0 "d"
      (Or.inr (Or.inl (by simp [twoColl])))).1,
   (dayLines_ordering twoColl 5 false 0 "d"
      (Or.inr (Or.inl (by simp [twoColl])))).2.1,
   (dayLines_ordering twoColl 5 false 0 "d"
      (Or.inr (Or.inl (by simp [twoColl])))).2.2.1,
   (dayLines_ordering twoColl 5 false 0 "d"
      (Or.inr (Or.inl (by simp [twoColl])))).2.2.2 0⟩

/-- C6: supplying both a day count and an events override makes `get_agenda`
fail the assertion (modelled as `none`) before producing any output; when at
most one of the two is supplied the assertion passes and a list is returned. -/
theorem get_agenda_assert (c : Collection) (fmt : Int → String) (today : Int)
    (dates : Option (List Int)) (days : Option Nat)
    (events : Option (List Event)) (w : Nat) (sad : Bool) :
    (days.isSome = true → events.isSome = true →
      get_agenda c fmt today dates days events w sad = none) ∧
    ((days = none ∨ events = none) →
      ∃ out, get_agenda c fmt today dates days events w sad = some out) := by
  constructor
  · intro h1 h2
    simp [get_agenda, h1, h2]
  · intro h
    have hcond : ¬(days.isSome ∧ events.isSome) := by
      rcases h with h | h <;> subst h <;> simp
    refine ⟨if event_column c fmt today (resolveDates today dates) (days.getD 2)
        w sad = [] then [StyledLine.bold "No events"]
      else event_column c fmt today (resolveDates today dates) (days.getD 2) w
        sad, ?_⟩
    simp [get_agenda, hcond]

/-- Witness for C6: both branches at concrete arguments. -/
theorem get_agenda_assert_witness :
    get_agenda emptyColl (fun _ => "x") 0 none (some 2) (some []) 45 false
        = none ∧
    ∃ out, get_agenda emptyColl (fun _ => "x") 0 none none none 45 false
        = some out :=
  ⟨(get_agenda_assert emptyColl (fun _ => "x") 0 none (some 2) (some []) 45
      false).1 rfl rfl,
   (get_agenda_assert emptyColl (fun _ => "x") 0 none none none 45 false).2
      (Or.inl rfl)⟩

/-- C8: when the free-text parser fails (fatal condition), `NewFromString`
ends the process with exit status 1; the parser's logged error is the sole
log entry and nothing is printed. -/
theorem newFromString_parse_error (msg calName printNew longForm pathStr : String)
    (readOnly : Bool) :
    newFromString (.error msg) readOnly calName printNew longForm pathStr =
      { logs := [msg], printed := [], exitCode := some 1 } := rfl

/-- C9: `construct_daynames` yields one (date, label) pair per input date in
order; the label is "Today:" for today, "Tomorrow:" for today + 1, and the
long-date rendering otherwise. -/
theorem construct_daynames_spec (today : Int) (l : List Int)
    (fmt : Int → String) :
    (construct_daynames today l fmt).length = l.length ∧
    ∀ (i : Nat) (d : Int), l[i]? = some d →
      (construct_daynames today l fmt)[i]? =
        some (d, if d = today then "Today:"
                 else if d = today + 1 then "Tomorrow:"
                 else fmt d) := by
  refine ⟨by simp [construct_daynames], ?_⟩
  intro i d h
  simp [construct_daynames, List.getElem?_map, h]

/-- Witness for C9 at today = 0 on the dates 0, 1 and 5. -/
theorem construct_daynames_spec_witness :
    (construct_daynames 0 [0, 1, 5] fun _ => "formatted").length = 3 ∧
    (construct_daynames 0 [0, 1, 5] fun _ => "formatted")[0]?
        = some (0, "Today:") ∧
    (construct_daynames 0 [0, 1, 5] fun _ => "formatted")[1]?
        = some (1, "Tomorrow:") ∧
    (construct_daynames 0 [0, 1, 5] fun _ => "formatted")[2]?
        = some (5, "formatted") := by
  have h := construct_daynames_spec 0 [0, 1, 5] fun _ => "formatted"
  refine ⟨by simpa using h.1, ?_, ?_, ?_⟩
  · simpa using h.2 0 0 rfl
  · simpa using h.2 1 1 rfl
  · simpa using h.2 2 5 rfl

/-- C10: the output of `get_agenda` does not depend on the `events` argument
(here with days = none so the precondition holds): the Python parameter is
overwritten by the per-day timed query before it is ever read, so the model
never consults it. -/
theorem get_agenda_events_irrelevant (c : Collection) (fmt : Int → String)
    (today : Int) (dates : Option (List Int))
    (ev1 ev2 : Option (List Event)) (w : Nat) (sad : Bool) :
    get_agenda c fmt today dates none ev1 w sad =
      get_agenda c fmt today dates none ev2 w sad := by
  simp [get_agenda]

/-! ## Width bound for the wrapping model -/

theorem sumLens_nil : sumLens [] = 0 := rfl

theorem sumLens_cons (a : List Char) (l : List (List Char)) :
    sumLens (a :: l) = a.length + sumLens l := by simp [sumLens]

theorem sumLens_append (l1 l2 : List (List Char)) :
    sumLens (l1 ++ l2) = sumLens l1 + sumLens l2 := by simp [sumLens]

theorem flatten_length (l : List (List Char)) :
    l.flatten.length = sumLens l := by simp [sumLens]

/-- Unfolding `fillLine` when the next chunk fits. -/
theorem fillLine_cons_of_le (w cur : Nat) (ch : List Char)
    (rest : List (List Char)) (h : cur + ch.length ≤ w) :
    fillLine w cur (ch :: rest) =
      (ch :: (fillLine w (cur + ch.length) rest).1,
       (fillLine w (cur + ch.length) rest).2) := by
  simp only [fillLine, if_pos h]

/-- Unfolding `fillLine` when the next chunk does not fit. -/
theorem fillLine_cons_of_gt (w cur : Nat) (ch : List Char)
    (rest : List (List Char)) (h : ¬ cur + ch.length ≤ w) :
    fillLine w cur (ch :: rest) = ([], ch :: rest) := by
  simp [fillLine, if_neg h]

/-- The line chunks and the remaining chunks of `fillLine` partition the
input chunks. -/
theorem fillLine_append (w : Nat) :
    ∀ (l : List (List Char)) (cur : Nat),
      (fillLine w cur l).1 ++ (fillLine w cur l).2 = l := by
  intro l
  induction l with
  | nil => intro cur; rfl
  | cons ch rest ih =>
    intro cur
    by_cases h : cur + ch.length ≤ w
    · rw [fillLine_cons_of_le w cur ch rest h]
      dsimp only
      rw [List.cons_append, ih (cur + ch.length)]
    · rw [fillLine_cons_of_gt w cur ch rest h]
      rfl

/-- The chunks taken by `fillLine` fit in the width (starting budget
included), unless nothing was taken. -/
theorem fill_bound (w : Nat) :
    ∀ (l : List (List Char)) (cur : Nat),
      cur + sumLens (fillLine w cur l).1 ≤ w ∨ (fillLine w cur l).1 = [] := by
  intro l
  induction l with
  | nil => intro cur; right; rfl
  | cons ch rest ih =>
    intro cur
    by_cases h : cur + ch.length ≤ w
    · left
      rw [fillLine_cons_of_le w cur ch rest h]
      dsimp only
      rw [sumLens_cons]
      rcases ih (cur + ch.length) with hb | hb
      · omega
      · rw [hb, sumLens_nil]
        omega
    · right
      rw [fillLine_cons_of_gt w cur ch rest h]

/-- `handleLong` never lets the line chunks exceed the width. -/
theorem handleLong_fst_le (w : Nat) (hw : 1 ≤ w)
    (fl : List (List Char) × List (List Char)) (hfst : sumLens fl.1 ≤ w) :
    sumLens (handleLong w fl).1 ≤ w := by
  rcases fl with ⟨l1, l2⟩
  cases l2 with
  | nil => simpa [handleLong] using hfst
  | cons ch rest =>
    by_cases h : w < ch.length
    · have h1 : ¬ w < 1 := by omega
      simp only [handleLong, if_pos h, if_neg h1]
      simp only [sumLens_append, sumLens_cons, sumLens_nil, List.length_take]
      simp only [sumLens] at hfst ⊢
      have := Nat.min_le_left (w - (l1.map List.length).sum) ch.length
      omega
    · simpa [handleLong, if_neg h] using hfst

theorem sumLens_dropLast_le : ∀ l : List (List Char), sumLens l.dropLast ≤ sumLens l := by
  intro l
  induction l with
  | nil => simp
  | cons a t ih =>
    cases t with
    | nil => simp [sumLens]
    | cons b t2 =>
      have h1 : (a :: b :: t2).dropLast = a :: (b :: t2).dropLast := rfl
      rw [h1, sumLens_cons,
        show sumLens (a :: b :: t2) = a.length + sumLens (b :: t2) from
          sumLens_cons _ _]
      exact Nat.add_le_add_left ih _

theorem sumLens_dropLastIfSpace_le (l : List (List Char)) :
    sumLens (dropLastIfSpace l) ≤ sumLens l := by
  unfold dropLastIfSpace
  cases h : l.getLast? with
  | none => exact le_refl _
  | some ch =>
    dsimp only
    split
    · exact sumLens_dropLast_le l
    · exact le_refl _

/-- Every line produced by the wrapping loop fits in the width. -/
theorem wrapLoop_le (w : Nat) (hw : 1 ≤ w) :
    ∀ (fuel : Nat) (em : Bool) (chunks : List (List Char)) (l : List Char),
      l ∈ wrapLoop w fuel em chunks → l.length ≤ w := by
  intro fuel
  induction fuel with
  | zero => intro em chunks l hl; simp [wrapLoop] at hl
  | succ f ih =>
    intro em chunks l hl
    cases chunks with
    | nil => simp [wrapLoop] at hl
    | cons ch0 rest0 =>
      simp only [wrapLoop] at hl
      set c1 := if em && ch0.all isSp then rest0 else ch0 :: rest0 with hc1
      have hb : sumLens (dropLastIfSpace (handleLong w (fillLine w 0 c1)).1) ≤ w := by
        refine le_trans (sumLens_dropLastIfSpace_le _) (handleLong_fst_le w hw _ ?_)
        rcases fill_bound w c1 0 with h | h
        · omega
        · simp [h, sumLens_nil]
      split at hl
      · exact ih _ _ _ hl
      · rcases List.mem_cons.1 hl with h | h
        · rw [h, flatten_length]
          exact hb
        · exact ih _ _ _ h

/-- Every line of `wrap` fits in the width. -/
theorem wrap_le (s : List Char) (w : Nat) (hw : 1 ≤ w) :
    ∀ l ∈ wrap s w, l.length ≤ w := by
  intro l hl
  simp only [wrap] at hl
  exact wrapLoop_le w hw _ _ _ l hl

/-- Every coloured (event) line in a `get_agenda` result fits in the width. -/
theorem get_agenda_colored_le (c : Collection) (fmt : Int → String)
    (today : Int) (dates : Option (List Int)) (days : Option Nat)
    (events : Option (List Event)) (w : Nat) (sad : Bool)
    (out : List StyledLine) (s : String) (col : Nat) (hw : 1 ≤ w)
    (hout : get_agenda c fmt today dates days events w sad = some out)
    (hmem : StyledLine.colored s col ∈ out) : s.length ≤ w := by
  unfold get_agenda at hout
  split at hout
  · exact absurd hout (by simp)
  · have hout' := Option.some.inj hout
    rw [← hout'] at hmem
    split at hmem
    · simp at hmem
    · unfold event_column at hmem
      rw [List.mem_flatMap] at hmem
      obtain ⟨p, hp, hmem⟩ := hmem
      unfold dayLines at hmem
      split at hmem
      · simp at hmem
      · rcases List.mem_cons.1 hmem with h | h
        · exact absurd h (by simp)
        · rw [List.mem_flatMap] at h
          obtain ⟨e, he, h⟩ := h
          unfold eventLines at h
          rw [List.mem_map] at h
          obtain ⟨d, hd, hh⟩ := h
          have hs : s = String.mk d := by
            cases hh
            rfl
          rw [hs]
          show d.length ≤ w
          exact wrap_le _ w hw d hd

/-! ## Chunk structure of tidy strings -/

theorem splitChunksF_congr : ∀ (n m : Nat) (l : List Char), l.length ≤ n →
    l.length ≤ m → splitChunksF n l = splitChunksF m l := by
  intro n
  induction n with
  | zero =>
    intro m l h1 _
    have : l = [] := List.length_eq_zero.1 (Nat.le_zero.1 h1)
    subst this
    cases m <;> rfl
  | succ n ih =>
    intro m l h1 h2
    cases l with
    | nil => cases m <;> rfl
    | cons c cs =>
      cases m with
      | zero => simp at h2
      | succ m =>
        simp only [splitChunksF]
        have hd : (cs.dropWhile fun d => isSp d == isSp c).length ≤ cs.length :=
          (List.dropWhile_sublist _).length_le
        simp only [List.length_cons] at h1 h2
        rw [ih m _ (by omega) (by omega)]

theorem splitChunks_nil : splitChunks [] = [] := rfl

theorem splitChunks_cons (c : Char) (cs : List Char) :
    splitChunks (c :: cs) =
      (c :: cs.takeWhile fun d => isSp d == isSp c) ::
        splitChunks (cs.dropWhile fun d => isSp d == isSp c) := by
  show splitChunksF (c :: cs).length (c :: cs) = _
  simp only [List.length_cons, splitChunksF]
  rw [splitChunksF_congr cs.length _ _ (List.dropWhile_sublist _).length_le
    le_rfl]
  rfl

theorem splitChunks_flatten (l : List Char) : (splitChunks l).flatten = l := by
  have key : ∀ (n : Nat) (t : List Char), t.length ≤ n →
      (splitChunks t).flatten = t := by
    intro n
    induction n with
    | zero =>
      intro t ht
      have : t = [] := List.length_eq_zero.1 (Nat.le_zero.1 ht)
      subst this
      rfl
    | succ n ih =>
      intro t ht
      cases t with
      | nil => rfl
      | cons c cs =>
        rw [splitChunks_cons, List.flatten_cons,
          ih _ (le_trans (List.dropWhile_sublist _).length_le
            (by simp at ht; omega))]
        rw [List.cons_append, List.takeWhile_append_dropWhile]
  exact key l.length l le_rfl

theorem splitChunks_sumLens (l : List Char) :
    sumLens (splitChunks l) = l.length := by
  rw [← flatten_length, splitChunks_flatten]

/-- A word chunk is not the single-space chunk. -/
theorem WordChunk_ne_space (ch : List Char) (h : WordChunk ch) : ch ≠ [' '] := by
  intro he
  rw [he] at h
  simpa [isSp] using h.2

/-- A non-empty all-non-space chunk is not an all-space chunk. -/
theorem word_not_all_space (x : List Char) (hne : x ≠ [])
    (hall : x.all (fun c => !isSp c) = true) : x.all isSp = false := by
  cases x with
  | nil => exact absurd rfl hne
  | cons c t =>
    simp only [List.all_cons, Bool.and_eq_true, Bool.not_eq_true'] at hall
    simp [hall.1]

/-- The leading run starting from a non-space character is a word chunk. -/
theorem takeWhile_word (c : Char) (cs : List Char) (hc : isSp c = false) :
    WordChunk (c :: cs.takeWhile fun d => isSp d == isSp c) := by
  refine ⟨List.cons_ne_nil _ _, ?_⟩
  rw [List.all_cons, hc]
  simp only [Bool.not_false, Bool.true_and, List.all_eq_true]
  intro d hd
  have := List.mem_takeWhile_imp hd
  simp only [beq_iff_eq] at this
  simp [this]

/-- The head of a `dropWhile` residue falsifies the predicate. -/
theorem head_dropWhile_false (p : Char → Bool) :
    ∀ (l : List Char) (d : Char) (t : List Char), l.dropWhile p = d :: t →
      p d = false := by
  intro l
  induction l with
  | nil => intro d t h; simp [List.dropWhile] at h
  | cons c cs ih =>
    intro d t h
    by_cases hp : p c
    · rw [List.dropWhile_cons_of_pos hp] at h
      exact ih d t h
    · rw [List.dropWhile_cons_of_neg hp] at h
      cases h
      exact eq_false_of_ne_true hp

/-- Tidy strings wrap unchanged by whitespace replacement. -/
theorem replaceWhitespace_eq_self (s : List Char)
    (h : ∀ c ∈ s, isSpaceChar c = true → c = ' ') :
    replaceWhitespace s = s := by
  unfold replaceWhitespace
  induction s with
  | nil => rfl
  | cons c cs ih =>
    rw [List.map_cons, ih fun d hd => h d (List.mem_cons_of_mem c hd)]
    by_cases hc : isSpaceChar c = true
    · rw [if_pos hc, h c (List.mem_cons_self c cs) hc]
    · rw [if_neg hc]

theorem chunksInv_nil : ChunksInv [] := by
  refine ⟨by simp, List.chain'_nil, by simp⟩

/-- Splitting a string with no double spaces and no trailing space yields a
chunk list satisfying the wrapping invariant. -/
theorem tidy_chunksInv_aux : ∀ (n : Nat) (l : List Char), l.length ≤ n →
    l.Chain' (fun a b => isSp a = false ∨ isSp b = false) →
    (∀ c, l.getLast? = some c → isSp c = false) →
    ChunksInv (splitChunks l) := by
  intro n
  induction n with
  | zero =>
    intro l hl _ _
    have : l = [] := List.length_eq_zero.1 (Nat.le_zero.1 hl)
    subst this
    exact chunksInv_nil
  | succ n ih =>
    intro l hlen hnd hlast
    cases l with
    | nil => exact chunksInv_nil
    | cons c cs =>
      rw [splitChunks_cons]
      by_cases hc : isSp c = true
      · -- the head character is a space: the leading run is the single space
        have hceq : c = ' ' := by simpa [isSp] using hc
        cases cs with
        | nil =>
          exfalso
          have := hlast c rfl
          rw [hc] at this
          exact absurd this (by simp)
        | cons d cs2 =>
          have hd : isSp d = false := by
            rcases (List.chain'_cons.1 hnd).1 with h | h
            · rw [hc] at h; exact absurd h (by simp)
            · exact h
          have htw : (d :: cs2).takeWhile (fun x => isSp x == isSp c) = [] := by
            apply List.takeWhile_cons_of_neg
            rw [hd, hc]
            simp
          have hdw : (d :: cs2).dropWhile (fun x => isSp x == isSp c)
              = d :: cs2 := by
            apply List.dropWhile_cons_of_neg
            rw [hd, hc]
            simp
          rw [htw, hdw]
          have hlen2 : (d :: cs2).length ≤ n := by
            simp only [List.length_cons] at hlen ⊢
            omega
          have hinv2 := ih (d :: cs2) hlen2 hnd.tail
            (fun x hx => hlast x (by rw [List.getLast?_cons_cons]; exact hx))
          have hsc := splitChunks_cons d cs2
          refine ⟨?_, ?_, ?_⟩
          · intro ch hch
            rcases List.mem_cons.1 hch with h | h
            · left; rw [h, hceq]
            · exact hinv2.1 ch h
          · refine List.chain'_cons'.2 ⟨?_, hinv2.2.1⟩
            intro y hy hcon
            rw [hsc] at hy
            simp only [List.head?_cons, Option.mem_def, Option.some.injEq] at hy
            rcases hcon with ⟨_, hy2⟩
            rw [← hy] at hy2
            have hd2 : d = ' ' := by
              have := congrArg List.head? hy2
              simpa using this
            rw [hd2] at hd
            simp [isSp] at hd
          · intro ch hch
            have hne : splitChunks (d :: cs2) ≠ [] := by rw [hsc]; simp
            rw [hsc, List.getLast?_cons_cons, ← hsc] at hch
            exact hinv2.2.2 ch hch
      · -- the head character is not a space: the leading run is a word
        have hcf : isSp c = false := eq_false_of_ne_true hc
        have hrun := takeWhile_word c cs hcf
        cases hdw : cs.dropWhile (fun d => isSp d == isSp c) with
        | nil =>
          rw [splitChunks_nil]
          refine ⟨?_, ?_, ?_⟩
          · intro ch hch
            rcases List.mem_cons.1 hch with h | h
            · right; rw [h]; exact hrun
            · simp at h
          · simp
          · intro ch hch
            simp only [List.getLast?_singleton, Option.some.injEq] at hch
            rw [← hch]
            exact WordChunk_ne_space _ hrun
        | cons r rest2 =>
          have happ :
              (c :: cs.takeWhile fun d => isSp d == isSp c) ++ (r :: rest2)
                = c :: cs := by
            rw [List.cons_append, ← hdw, List.takeWhile_append_dropWhile]
          have hndr : (r :: rest2).Chain'
              (fun a b => isSp a = false ∨ isSp b = false) := by
            have h2 := hnd
            rw [← happ] at h2
            exact (List.chain'_append.1 h2).2.1
          have hlastr : ∀ x, (r :: rest2).getLast? = some x →
              isSp x = false := by
            intro x hx
            apply hlast
            rw [← happ,
              List.getLast?_append_of_ne_nil _ (List.cons_ne_nil _ _)]
            exact hx
          have hlenr : (r :: rest2).length ≤ n := by
            have h1 : (cs.dropWhile fun d => isSp d == isSp c).length
                ≤ cs.length := (List.dropWhile_sublist _).length_le
            rw [hdw] at h1
            simp only [List.length_cons] at hlen h1 ⊢
            omega
          have hinv2 := ih (r :: rest2) hlenr hndr hlastr
          refine ⟨?_, ?_, ?_⟩
          · intro ch hch
            rcases List.mem_cons.1 hch with h | h
            · right; rw [h]; exact hrun
            · exact hinv2.1 ch h
          · refine List.chain'_cons'.2 ⟨?_, hinv2.2.1⟩
            intro y hy hcon
            exact WordChunk_ne_space _ hrun hcon.1
          · intro ch hch
            have hsc := splitChunks_cons r rest2
            rw [hsc, List.getLast?_cons_cons, ← hsc] at hch
            exact hinv2.2.2 ch hch

/-- The chunk list of a tidy string satisfies the wrapping invariant. -/
theorem tidy_chunksInv (s : List Char) (ht : Tidy s) :
    ChunksInv (splitChunks s) := by
  refine tidy_chunksInv_aux s.length s le_rfl ht.2.2.1 ?_
  intro c hc
  cases h : isSp c
  · rfl
  · exfalso
    have hceq : c = ' ' := by simpa [isSp] using h
    exact ht.2.1 (by rw [← hceq]; exact hc)

/-! ## The wrapping loop on invariant chunk lists -/

theorem chunksInv_suffix (a b : List (List Char)) (h : ChunksInv (a ++ b)) :
    ChunksInv b := by
  refine ⟨fun ch hch => h.1 ch (List.mem_append_right a hch),
    (List.chain'_append.1 h.2.1).2.1, ?_⟩
  intro ch hch
  cases b with
  | nil => simp at hch
  | cons x xs =>
    apply h.2.2
    rw [List.getLast?_append_of_ne_nil _ (List.cons_ne_nil _ _)]
    exact hch

theorem chunksInv_replaceHead (ch ch' : List Char) (rest : List (List Char))
    (h : ChunksInv (ch :: rest)) (hw : WordChunk ch') :
    ChunksInv (ch' :: rest) := by
  refine ⟨?_, ?_, ?_⟩
  · intro x hx
    rcases List.mem_cons.1 hx with h1 | h1
    · right; rw [h1]; exact hw
    · exact h.1 x (List.mem_cons_of_mem _ h1)
  · refine List.chain'_cons'.2 ⟨?_, (List.chain'_cons'.1 h.2.1).2⟩
    intro y hy hcon
    exact WordChunk_ne_space _ hw hcon.1
  · intro x hx
    cases rest with
    | nil =>
      simp only [List.getLast?_singleton, Option.some.injEq] at hx
      rw [← hx]
      exact WordChunk_ne_space _ hw
    | cons y ys =>
      rw [List.getLast?_cons_cons] at hx
      apply h.2.2
      rw [List.getLast?_cons_cons]
      exact hx

theorem handleLong_eq_of_le (w : Nat)
    (fl : List (List Char) × List (List Char)) (ch : List Char)
    (rest : List (List Char)) (h : fl.2 = ch :: rest)
    (hle : ¬ w < ch.length) : handleLong w fl = (fl.1, ch :: rest) := by
  unfold handleLong
  rw [h]
  simp [if_neg hle]

theorem handleLong_eq_of_lt (w : Nat) (hw : 1 ≤ w)
    (fl : List (List Char) × List (List Char)) (ch : List Char)
    (rest : List (List Char)) (h : fl.2 = ch :: rest) (hlt : w < ch.length) :
    handleLong w fl = (fl.1 ++ [ch.take (w - sumLens fl.1)],
      ch.drop (w - sumLens fl.1) :: rest) := by
  unfold handleLong
  rw [h]
  have h1 : ¬ w < 1 := by omega
  have h0 : ¬ w = 0 := by omega
  simp [if_pos hlt, if_neg h1, h0]

theorem handleLong_fst_cons (w : Nat) (x : List Char)
    (xs rem : List (List Char)) :
    ∃ t, (handleLong w (x :: xs, rem)).1 = x :: t := by
  cases rem with
  | nil => exact ⟨xs, rfl⟩
  | cons ch rest =>
    by_cases h : w < ch.length
    · refine ⟨xs ++ [ch.take (if w < 1 then 1 else w - sumLens (x :: xs))], ?_⟩
      simp [handleLong, if_pos h]
    · exact ⟨xs, by simp [handleLong, if_neg h]⟩

theorem dropLastIfSpace_cons_ne_nil (x : List Char) (xs : List (List Char))
    (hword : WordChunk x) : dropLastIfSpace (x :: xs) ≠ [] := by
  have hxf : x.all isSp = false := word_not_all_space x hword.1 hword.2
  unfold dropLastIfSpace
  cases xs with
  | nil => simp [List.getLast?_singleton, hxf]
  | cons y ys =>
    cases hgl : (x :: y :: ys).getLast? with
    | none => simp
    | some ch =>
      dsimp only
      split
      · have hd : (x :: y :: ys).dropLast = x :: (y :: ys).dropLast := rfl
        rw [hd]
        exact List.cons_ne_nil _ _
      · exact List.cons_ne_nil _ _

theorem wordChunk_take (x : List Char) (n : Nat) (h : WordChunk x)
    (hn : n ≠ 0) : WordChunk (x.take n) := by
  refine ⟨?_, ?_⟩
  · rw [Ne, List.take_eq_nil_iff]
    push_neg
    exact ⟨hn, h.1⟩
  · rw [List.all_eq_true]
    intro d hd
    exact (List.all_eq_true.1 h.2) d (List.mem_of_mem_take hd)

theorem wordChunk_drop (x : List Char) (n : Nat) (h : WordChunk x)
    (hn : n < x.length) : WordChunk (x.drop n) := by
  refine ⟨?_, ?_⟩
  · intro he
    have hlen := congrArg List.length he
    rw [List.length_drop] at hlen
    simp at hlen
    omega
  · rw [List.all_eq_true]
    intro d hd
    exact (List.all_eq_true.1 h.2) d (List.mem_of_mem_drop hd)

/-- When the next chunk to place is a word, the iteration's line is
non-empty. -/
theorem iterLine_ne_nil (w : Nat) (hw : 1 ≤ w) (d1 : List Char)
    (rest1 : List (List Char)) (hword : WordChunk d1) :
    dropLastIfSpace (handleLong w (fillLine w 0 (d1 :: rest1))).1 ≠ [] := by
  by_cases hle : d1.length ≤ w
  · rw [fillLine_cons_of_le w 0 d1 rest1 (by omega)]
    obtain ⟨t, ht⟩ := handleLong_fst_cons w d1
      (fillLine w (0 + d1.length) rest1).1 (fillLine w (0 + d1.length) rest1).2
    rw [ht]
    exact dropLastIfSpace_cons_ne_nil d1 t hword
  · rw [fillLine_cons_of_gt w 0 d1 rest1 (by omega)]
    rw [handleLong_eq_of_lt w hw ([], d1 :: rest1) d1 rest1 rfl (by omega)]
    dsimp only
    simp only [List.nil_append, sumLens_nil, Nat.sub_zero]
    exact dropLastIfSpace_cons_ne_nil (d1.take w) []
      (wordChunk_take d1 w hword (by omega))

/-- The chunks left over by one iteration keep the invariant and are
non-empty whenever the chunks carry more characters than the width. -/
theorem iterRest_inv (w : Nat) (hw : 1 ≤ w) (chunks : List (List Char))
    (hinv : ChunksInv chunks) (hbig : w < sumLens chunks) :
    ChunksInv (handleLong w (fillLine w 0 chunks)).2 ∧
      (handleLong w (fillLine w 0 chunks)).2 ≠ [] := by
  have happ : (fillLine w 0 chunks).1 ++ (fillLine w 0 chunks).2 = chunks :=
    fillLine_append w chunks 0
  have hsum1 : sumLens (fillLine w 0 chunks).1 ≤ w := by
    rcases fill_bound w chunks 0 with hb | hb
    · omega
    · rw [hb, sumLens_nil]; omega
  have hF2ne : (fillLine w 0 chunks).2 ≠ [] := by
    intro h
    rw [h, List.append_nil] at happ
    rw [happ] at hsum1
    omega
  have hinv2 : ChunksInv (fillLine w 0 chunks).2 := by
    apply chunksInv_suffix (fillLine w 0 chunks).1
    rw [happ]
    exact hinv
  cases hF2 : (fillLine w 0 chunks).2 with
  | nil => exact absurd hF2 hF2ne
  | cons ch rest =>
    rw [hF2] at hinv2
    by_cases hlt : w < ch.length
    · rw [handleLong_eq_of_lt w hw _ ch rest hF2 hlt]
      dsimp only
      refine ⟨?_, List.cons_ne_nil _ _⟩
      refine chunksInv_replaceHead ch _ rest hinv2 ?_
      apply wordChunk_drop
      · rcases hinv2.1 ch (List.mem_cons_self _ _) with h1 | h1
        · rw [h1] at hlt
          simp at hlt
          omega
        · exact h1
      · have : w - sumLens (fillLine w 0 chunks).1 ≤ w := Nat.sub_le _ _
        omega
    · rw [handleLong_eq_of_le w _ ch rest hF2 hlt]
      exact ⟨hinv2, List.cons_ne_nil _ _⟩

/-- Once a line has been emitted, an invariant non-empty chunk list always
yields at least one more line. -/
theorem wrapLoop_emits (w : Nat) (hw : 1 ≤ w) (fuel : Nat)
    (chunks : List (List Char)) (hinv : ChunksInv chunks)
    (hne : chunks ≠ []) :
    1 ≤ (wrapLoop w (fuel + 1) true chunks).length := by
  cases chunks with
  | nil => exact absurd rfl hne
  | cons ch0 rest0 =>
    have key : ∃ d1 rest1,
        (if true && ch0.all isSp then rest0 else ch0 :: rest0) = d1 :: rest1 ∧
          WordChunk d1 := by
      by_cases hsp : ch0.all isSp = true
      · have hch0 : ch0 = [' '] := by
          rcases hinv.1 ch0 (List.mem_cons_self _ _) with h | h
          · exact h
          · rw [word_not_all_space ch0 h.1 h.2] at hsp
            exact absurd hsp (by simp)
        cases rest0 with
        | nil =>
          exfalso
          exact hinv.2.2 ch0 (by simp [List.getLast?_singleton]) hch0
        | cons ch1 rest1 =>
          refine ⟨ch1, rest1, by simp [hsp], ?_⟩
          have hrel := (List.chain'_cons'.1 hinv.2.1).1 ch1 (by simp)
          rcases hinv.1 ch1
              (List.mem_cons_of_mem _ (List.mem_cons_self _ _)) with h | h
          · exact absurd ⟨hch0, h⟩ hrel
          · exact h
      · refine ⟨ch0, rest0, by simp [hsp], ?_⟩
        rcases hinv.1 ch0 (List.mem_cons_self _ _) with h | h
        · rw [h] at hsp
          exact absurd (by simp [isSp]) hsp
        · exact h
    obtain ⟨d1, rest1, heq, hword⟩ := key
    simp only [wrapLoop]
    rw [heq]
    have hline := iterLine_ne_nil w hw d1 rest1 hword
    rw [if_neg fun hcontra => hline (List.isEmpty_iff.1 hcontra)]
    simp

/-- A tidy description (no leading/trailing whitespace, no two adjacent
whitespace characters) longer than the width wraps into at least two lines. -/
theorem wrap_tidy_two (s : List Char) (w : Nat) (hw : 1 ≤ w) (ht : Tidy s)
    (hlen : w < s.length) : 2 ≤ (wrap s w).length := by
  cases s with
  | nil => simp at hlen
  | cons c cs =>
    have hrw : replaceWhitespace (c :: cs) = c :: cs :=
      replaceWhitespace_eq_self (c :: cs) ht.2.2.2
    have hcf : isSp c = false := by
      cases h : isSp c
      · rfl
      · exfalso
        have hceq : c = ' ' := by simpa [isSp] using h
        exact ht.1 (by rw [hceq]; rfl)
    have hinv := tidy_chunksInv (c :: cs) ht
    have hsum := splitChunks_sumLens (c :: cs)
    have hch := splitChunks_cons c cs
    simp only [wrap]
    rw [hrw, hch]
    rw [hch] at hinv hsum
    set run := c :: cs.takeWhile fun d => isSp d == isSp c with hrundef
    set SC := splitChunks (cs.dropWhile fun d => isSp d == isSp c) with hSCdef
    have hword : WordChunk run := takeWhile_word c cs hcf
    set F := (c :: cs).length + (run :: SC).length with hFdef
    simp only [wrapLoop]
    rw [show (false && run.all isSp) = false from rfl,
      if_neg Bool.false_ne_true]
    have hline := iterLine_ne_nil w hw run SC hword
    rw [if_neg fun hcontra => hline (List.isEmpty_iff.1 hcontra)]
    rw [List.length_cons]
    have hbig : w < sumLens (run :: SC) := by rw [hsum]; exact hlen
    obtain ⟨hinv2, hne2⟩ := iterRest_inv w hw (run :: SC) hinv hbig
    have hF1 : 1 ≤ F := by
      rw [hFdef]
      have h2 : 0 < (c :: cs).length := by simp
      omega
    rcases Nat.exists_eq_succ_of_ne_zero (by omega : F ≠ 0) with ⟨F2, hF2⟩
    rw [hF2]
    have hrec := wrapLoop_emits w hw F2 _ hinv2 hne2
    exact Nat.succ_le_succ hrec

/-- C7 counterexample: the 6-character description "abcd  " (trailing
spaces), wrapped at width 5 inside `get_agenda`, yields a single line, not
at least two, because `textwrap` drops the trailing whitespace. -/
theorem wrap_width_cex :
    ("abcd  ".toList).length = 6 ∧
    wrap ("abcd  ".toList) 5 = ["abcd".toList] ∧
    get_agenda cexColl (fun _ => "D") 99 (some [0]) (some 1) none 5 false =
      some [StyledLine.bold "D", StyledLine.colored "abcd" 0] := by
  refine ⟨by decide, by decide, ?_⟩
  simp [get_agenda, event_column, resolveDates, expandDays, dayLines,
    sortedTimed, eventLines, construct_daynames, cexColl, cexEvent,
    List.range_succ]
  decide

/-- C7 (amended): every event line emitted by `get_agenda` is at most
`width` columns (for width at least 1); an event description longer than the
width is split into at least two lines provided it is tidy (no leading or
trailing whitespace and no two adjacent whitespace characters) — in general
a description longer than the width whose surplus is droppable whitespace
(such as trailing spaces) may fit in fewer lines. -/
theorem wrap_width_spec :
    (∀ (c : Collection) (fmt : Int → String) (today : Int)
        (dates : Option (List Int)) (days : Option Nat)
        (events : Option (List Event)) (w : Nat) (sad : Bool)
        (out : List StyledLine) (s : String) (col : Nat),
      1 ≤ w → get_agenda c fmt today dates days events w sad = some out →
      StyledLine.colored s col ∈ out → s.length ≤ w) ∧
    ∀ (s : List Char) (w : Nat), 1 ≤ w → Tidy s → w < s.length →
      2 ≤ (wrap s w).length :=
  ⟨fun c fmt today dates days events w sad out s col hw hout hmem =>
      get_agenda_colored_le c fmt today dates days events w sad out s col hw
        hout hmem,
    fun s w hw ht hlen => wrap_tidy_two s w hw ht hlen⟩

/-- Witness for C7 at concrete inputs: the wrapped line of the fixture event
fits in width 5, and the tidy 11-character description "hello world" at
width 5 is split into at least two lines. -/
theorem wrap_width_spec_witness :
    ("abcd" : String).length ≤ 5 ∧
    2 ≤ (wrap ("hello world".toList) 5).length :=
  ⟨wrap_width_spec.1 cexColl (fun _ => "D") 99 (some [0]) (some 1) none 5
      false [StyledLine.bold "D", StyledLine.colored "abcd" 0] "abcd" 0
      (by decide)
      (by
        simp [get_agenda, event_column, resolveDates, expandDays, dayLines,
          sortedTimed, eventLines, construct_daynames, cexColl, cexEvent,
          List.range_succ]
        decide)
      (by decide),
   wrap_width_spec.2 ("hello world".toList) 5 (by decide) (by decide)
      (by decide)⟩
